import Mathlib

/-!
Shallow embedding of the classical-cipher toolkit (cesar.cpp, vigenere.cpp,
aes.cpp) and proofs about it.  Texts are lists of byte values (`List Nat`);
C `int` arithmetic is embedded as `Int`, with C's truncating `%` rendered as
`Int.tmod`.  Fallible functions (those returning `NULL` on error in C)
return `Option` / `Except`.
-/

/-- ASCII uppercase-letter test, as in ctype's `isupper` range check. -/
def isupper (c : Nat) : Bool := 65 ≤ c && c ≤ 90

/-- ASCII lowercase-letter test, as in ctype's `islower` range check. -/
def islower (c : Nat) : Bool := 97 ≤ c && c ≤ 122

/-- ASCII letter test, as in ctype's `isalpha`. -/
def isalpha (c : Nat) : Bool := isupper c || islower c

/-- ASCII upcasing, as in ctype's `toupper`. -/
def toupper (c : Nat) : Nat := if islower c then c - 32 else c

/-! ## Caesar cipher (cesar.cpp) -/

/-- Shift normalisation at the top of `encrypt_cesar`:
`shift = shift % 26; if (shift < 0) shift += 26;`. -/
def cesarNormShift (shift : Int) : Int :=
  let s := shift.tmod 26
  if s < 0 then s + 26 else s

/-- Per-character body of the `encrypt_cesar` loop: rotate uppercase letters
within `'A'..'Z'`, lowercase within `'a'..'z'`, leave the rest unchanged. -/
def cesarChar (s : Int) (c : Nat) : Nat :=
  if 65 ≤ c ∧ c ≤ 90 then (((c : Int) - 65 + s).tmod 26 + 65).toNat
  else if 97 ≤ c ∧ c ≤ 122 then (((c : Int) - 97 + s).tmod 26 + 97).toNat
  else c

/-- `encrypt_cesar` from cesar.cpp. -/
def encrypt_cesar (plaintext : List Nat) (shift : Int) : List Nat :=
  plaintext.map (cesarChar (cesarNormShift shift))

/-- `decrypt_cesar` from cesar.cpp: encryption with the negated shift. -/
def decrypt_cesar (ciphertext : List Nat) (shift : Int) : List Nat :=
  encrypt_cesar ciphertext (-shift)

/-! ## Modular inverse (aes.cpp) -/

/-- Loop of `modInverse`: `for (x = 1; x < m; x++) if ((a*x) % m == 1) return x;
return -1;`, with a fuel argument making the recursion structural. -/
def modInverseGo (a m : Int) : Int → Nat → Int
  | _, 0 => -1
  | x, fuel+1 =>
    if x < m then
      if (a * x).tmod m = 1 then x else modInverseGo a m (x + 1) fuel
    else -1

/-- `modInverse` from aes.cpp: `a = a % m;` then the linear search.  Fuel
`m.toNat` covers every iteration the C loop can perform. -/
def modInverse (a m : Int) : Int :=
  modInverseGo (a.tmod m) m 1 m.toNat

/-! ## Affine cipher (aes.cpp) -/

/-- Per-character body of the `encrypt_affine` loop. -/
def affineEncChar (a b : Int) (c : Nat) : Nat :=
  if isalpha c then
    let base : Int := if isupper c then 65 else 97
    let P : Int := (c : Int) - base
    let C0 := (a * P + b).tmod 26
    let C1 := if C0 < 0 then C0 + 26 else C0
    (C1 + base).toNat
  else c

/-- `encrypt_affine` from aes.cpp: check `a` via `modInverse`, then map the
per-character transform; `none` models the `NULL` return (InvalidKey). -/
def encrypt_affine (plaintext : List Nat) (a b : Int) : Option (List Nat) :=
  if modInverse a 26 = -1 then none
  else some (plaintext.map (affineEncChar a b))

/-- Per-character body of the `decrypt_affine` loop:
`P = a_inv * (C - b); P = (P % 26 + 26) % 26;`. -/
def affineDecChar (aInv b : Int) (c : Nat) : Nat :=
  if isalpha c then
    let base : Int := if isupper c then 65 else 97
    let C : Int := (c : Int) - base
    let P0 := (aInv * (C - b)).tmod 26
    let P1 := (P0 + 26).tmod 26
    (P1 + base).toNat
  else c

/-- `decrypt_affine` from aes.cpp. -/
def decrypt_affine (ciphertext : List Nat) (a b : Int) : Option (List Nat) :=
  let aInv := modInverse a 26
  if aInv = -1 then none
  else some (ciphertext.map (affineDecChar aInv b))

/-! ## Bridge lemmas between C's truncating `%` (`Int.tmod`) and `emod` -/

lemma tmod_neg_dividend (a b : Int) : (-a).tmod b = -(a.tmod b) := by
  rw [Int.tmod_def, Int.tmod_def, Int.neg_tdiv]
  ring

lemma tmod26_lt (a : Int) : a.tmod 26 < 26 := Int.tmod_lt_of_pos a (by norm_num)

lemma tmod26_gt (a : Int) : -26 < a.tmod 26 := by
  rcases le_or_lt 0 a with h | h
  · have := Int.tmod_nonneg 26 h
    omega
  · have h1 : a.tmod 26 = -((-a).tmod 26) := by
      rw [← tmod_neg_dividend, neg_neg]
    have h2 : (-a).tmod 26 < 26 := tmod26_lt (-a)
    omega

lemma tmod26_emod (a : Int) : a.tmod 26 % 26 = a % 26 := by
  have h : a.tmod 26 = a + 26 * (-(a.tdiv 26)) := by
    rw [Int.tmod_def]; ring
  rw [h, Int.add_mul_emod_self_left]

lemma tmod_eq_self_of_range (a : Int) (h0 : 0 ≤ a) (h1 : a < 26) :
    a.tmod 26 = a :=
  Int.tmod_eq_of_lt h0 h1

lemma tmod26_nonneg_emod (a : Int) (h : 0 ≤ a) : a.tmod 26 = a % 26 :=
  Int.tmod_eq_emod h (by norm_num)

/-! ## Facts about `cesarNormShift` -/

lemma cesarNormShift_range (s : Int) :
    0 ≤ cesarNormShift s ∧ cesarNormShift s < 26 := by
  simp only [cesarNormShift]
  have h1 := tmod26_lt s
  have h2 := tmod26_gt s
  split <;> omega

lemma cesarNormShift_emod (s : Int) : cesarNormShift s % 26 = s % 26 := by
  simp only [cesarNormShift]
  have h := tmod26_emod s
  split
  · omega
  · simpa using h

/-! ## Per-character facts for the Caesar cipher -/

lemma isupper_iff (c : Nat) : isupper c = true ↔ 65 ≤ c ∧ c ≤ 90 := by
  simp [isupper]

lemma islower_iff (c : Nat) : islower c = true ↔ 97 ≤ c ∧ c ≤ 122 := by
  simp [islower]

lemma isalpha_iff (c : Nat) :
    isalpha c = true ↔ (65 ≤ c ∧ c ≤ 90) ∨ (97 ≤ c ∧ c ≤ 122) := by
  simp [isalpha, isupper, islower]

lemma cesarChar_upper (s : Int) (hs : 0 ≤ s) (c : Nat) (h1 : 65 ≤ c) (h2 : c ≤ 90) :
    cesarChar s c = (((c : Int) - 65 + s) % 26 + 65).toNat := by
  unfold cesarChar
  rw [if_pos (show 65 ≤ c ∧ c ≤ 90 from ⟨h1, h2⟩)]
  rw [tmod26_nonneg_emod _ (by omega)]

lemma cesarChar_lower (s : Int) (hs : 0 ≤ s) (c : Nat) (h1 : 97 ≤ c) (h2 : c ≤ 122) :
    cesarChar s c = (((c : Int) - 97 + s) % 26 + 97).toNat := by
  unfold cesarChar
  rw [if_neg (show ¬(65 ≤ c ∧ c ≤ 90) by omega),
    if_pos (show 97 ≤ c ∧ c ≤ 122 from ⟨h1, h2⟩)]
  rw [tmod26_nonneg_emod _ (by omega)]

lemma cesarChar_other (s : Int) (c : Nat) (h : isalpha c = false) :
    cesarChar s c = c := by
  have h' : ¬((65 ≤ c ∧ c ≤ 90) ∨ (97 ≤ c ∧ c ≤ 122)) := by
    rw [← isalpha_iff c, h]; simp
  unfold cesarChar
  rw [if_neg (fun hc => h' (Or.inl hc)), if_neg (fun hc => h' (Or.inr hc))]

lemma cesarChar_roundTrip (k : Int) (c : Nat) :
    cesarChar (cesarNormShift (-k)) (cesarChar (cesarNormShift k) c) = c := by
  obtain ⟨hs1a, hs1b⟩ := cesarNormShift_range k
  obtain ⟨hs2a, hs2b⟩ := cesarNormShift_range (-k)
  have he1 := cesarNormShift_emod k
  have he2 := cesarNormShift_emod (-k)
  by_cases hu : 65 ≤ c ∧ c ≤ 90
  · rw [cesarChar_upper _ hs1a c hu.1 hu.2]
    have hn := Int.emod_nonneg ((c : Int) - 65 + cesarNormShift k)
      (by norm_num : (26 : Int) ≠ 0)
    have hl := Int.emod_lt_of_pos ((c : Int) - 65 + cesarNormShift k)
      (by norm_num : (0 : Int) < 26)
    rw [cesarChar_upper _ hs2a _ (by omega) (by omega)]
    omega
  · by_cases hlo : 97 ≤ c ∧ c ≤ 122
    · rw [cesarChar_lower _ hs1a c hlo.1 hlo.2]
      have hn := Int.emod_nonneg ((c : Int) - 97 + cesarNormShift k)
        (by norm_num : (26 : Int) ≠ 0)
      have hl := Int.emod_lt_of_pos ((c : Int) - 97 + cesarNormShift k)
        (by norm_num : (0 : Int) < 26)
      rw [cesarChar_lower _ hs2a _ (by omega) (by omega)]
      omega
    · have hna : isalpha c = false := by
        rw [← Bool.not_eq_true, isalpha_iff]; tauto
      rw [cesarChar_other _ c hna, cesarChar_other _ c hna]

lemma cesar_roundTrip (T : List Nat) (k : Int) :
    decrypt_cesar (encrypt_cesar T k) k = T := by
  unfold decrypt_cesar encrypt_cesar
  rw [List.map_map]
  induction T with
  | nil => rfl
  | cons c rest ih =>
    simp only [List.map_cons, Function.comp_apply, cesarChar_roundTrip k c, ih]

/-! ## modInverse characterisation -/

lemma modInverse_residue : ∀ r : Fin 26,
    (Nat.gcd r.val 26 = 1 →
      1 ≤ modInverse (r.val : Int) 26 ∧ modInverse (r.val : Int) 26 < 26 ∧
      ((r.val : Int) * modInverse (r.val : Int) 26) % 26 = 1)
    ∧ (Nat.gcd r.val 26 ≠ 1 → modInverse (r.val : Int) 26 = -1) := by
  decide

lemma modInverse_reduce (a : Int) (ha : 0 ≤ a) :
    modInverse a 26 = modInverse (a % 26) 26 := by
  unfold modInverse
  rw [tmod26_nonneg_emod a ha,
    tmod_eq_self_of_range (a % 26) (Int.emod_nonneg a (by norm_num))
      (Int.emod_lt_of_pos a (by norm_num))]

lemma modInverseGo_nonpos (a : Int) (ha : a ≤ 0) :
    ∀ (fuel : Nat) (x : Int), 1 ≤ x → modInverseGo a 26 x fuel = -1 := by
  intro fuel
  induction fuel with
  | zero => intro x _; rfl
  | succ n ih =>
    intro x hx
    unfold modInverseGo
    split
    · have hprod : a * x ≤ 0 := mul_nonpos_iff.mpr (Or.inr ⟨ha, by omega⟩)
      have htm : (a * x).tmod 26 ≤ 0 := by
        have h1 : (a * x).tmod 26 = -((-(a * x)).tmod 26) := by
          rw [← tmod_neg_dividend, neg_neg]
        have h2 : 0 ≤ (-(a * x)).tmod 26 := Int.tmod_nonneg 26 (by omega)
        omega
      rw [if_neg (by omega)]
      exact ih (x + 1) (by omega)
    · rfl

lemma modInverse_neg (a : Int) (ha : a < 0) : modInverse a 26 = -1 := by
  unfold modInverse
  have htm : a.tmod 26 ≤ 0 := by
    have h1 : a.tmod 26 = -((-a).tmod 26) := by
      rw [← tmod_neg_dividend, neg_neg]
    have h2 : 0 ≤ (-a).tmod 26 := Int.tmod_nonneg 26 (by omega)
    omega
  exact modInverseGo_nonpos (a.tmod 26) htm 26 1 (by norm_num)

lemma gcd_emod26 (a : Int) (ha : 0 ≤ a) : Int.gcd (a % 26) 26 = Int.gcd a 26 := by
  have h1 : (a % 26).natAbs = a.natAbs % 26 := by omega
  have h2 : (26 : Int).natAbs = 26 := rfl
  unfold Int.gcd
  rw [h1, h2, ← Nat.gcd_rec 26 a.natAbs, Nat.gcd_comm]

lemma modInverse_spec_nonneg (a : Int) (ha : 0 ≤ a) (hg : Int.gcd a 26 = 1) :
    1 ≤ modInverse a 26 ∧ modInverse a 26 < 26 ∧
    (a * modInverse a 26) % 26 = 1 := by
  have hr0 : 0 ≤ a % 26 := Int.emod_nonneg a (by norm_num)
  have hr1 : a % 26 < 26 := Int.emod_lt_of_pos a (by norm_num)
  have hfin : ((a % 26).toNat : Int) = a % 26 := Int.toNat_of_nonneg hr0
  have hgr : Nat.gcd (a % 26).toNat 26 = 1 := by
    have h := gcd_emod26 a ha
    rw [hg] at h
    unfold Int.gcd at h
    rwa [show (a % 26).natAbs = (a % 26).toNat by omega,
      show (26 : Int).natAbs = 26 from rfl] at h
  obtain ⟨h1, h2, h3⟩ :=
    (modInverse_residue ⟨(a % 26).toNat, by omega⟩).1 hgr
  rw [hfin] at h1 h2 h3
  rw [modInverse_reduce a ha]
  refine ⟨h1, h2, ?_⟩
  have hme : Int.ModEq 26 a (a % 26) := (Int.emod_emod_of_dvd a dvd_rfl).symm
  have := hme.mul_right (modInverse (a % 26) 26)
  unfold Int.ModEq at this
  omega

lemma modInverse_not_coprime (a : Int) (ha : 0 ≤ a) (hg : Int.gcd a 26 ≠ 1) :
    modInverse a 26 = -1 := by
  have hr0 : 0 ≤ a % 26 := Int.emod_nonneg a (by norm_num)
  have hr1 : a % 26 < 26 := Int.emod_lt_of_pos a (by norm_num)
  have hfin : ((a % 26).toNat : Int) = a % 26 := Int.toNat_of_nonneg hr0
  have hgr : Nat.gcd (a % 26).toNat 26 ≠ 1 := by
    have h := gcd_emod26 a ha
    intro hc
    apply hg
    rw [← h]
    unfold Int.gcd
    rwa [show (a % 26).natAbs = (a % 26).toNat by omega,
      show (26 : Int).natAbs = 26 from rfl]
  have := (modInverse_residue ⟨(a % 26).toNat, by omega⟩).2 hgr
  rw [hfin] at this
  rw [modInverse_reduce a ha]
  exact this

lemma modInverse_eq_neg_one_iff (a : Int) :
    modInverse a 26 = -1 ↔ (a < 0 ∨ Int.gcd a 26 ≠ 1) := by
  constructor
  · intro h
    by_contra hc
    push_neg at hc
    obtain ⟨h1, -, -⟩ := modInverse_spec_nonneg a (by omega) hc.2
    omega
  · rintro (h | h)
    · exact modInverse_neg a h
    · rcases lt_or_le a 0 with h' | h'
      · exact modInverse_neg a h'
      · exact modInverse_not_coprime a h' h

/-! ## Per-character facts for the affine cipher -/

lemma affineEncChar_upper (a b : Int) (c : Nat) (h1 : 65 ≤ c) (h2 : c ≤ 90) :
    affineEncChar a b c = ((a * ((c : Int) - 65) + b) % 26 + 65).toNat := by
  have halpha : isalpha c = true := (isalpha_iff c).mpr (Or.inl ⟨h1, h2⟩)
  have hupper : isupper c = true := (isupper_iff c).mpr ⟨h1, h2⟩
  have hb1 := tmod26_lt (a * ((c : Int) - 65) + b)
  have hb2 := tmod26_gt (a * ((c : Int) - 65) + b)
  have hem := tmod26_emod (a * ((c : Int) - 65) + b)
  have hn := Int.emod_nonneg (a * ((c : Int) - 65) + b) (by norm_num : (26 : Int) ≠ 0)
  have hl := Int.emod_lt_of_pos (a * ((c : Int) - 65) + b) (by norm_num : (0 : Int) < 26)
  simp only [affineEncChar, halpha, hupper, if_true]
  split <;> omega

lemma affineEncChar_lower (a b : Int) (c : Nat) (h1 : 97 ≤ c) (h2 : c ≤ 122) :
    affineEncChar a b c = ((a * ((c : Int) - 97) + b) % 26 + 97).toNat := by
  have halpha : isalpha c = true := (isalpha_iff c).mpr (Or.inr ⟨h1, h2⟩)
  have hupper : isupper c = false := by
    rw [← Bool.not_eq_true, isupper_iff]; omega
  have hb1 := tmod26_lt (a * ((c : Int) - 97) + b)
  have hb2 := tmod26_gt (a * ((c : Int) - 97) + b)
  have hem := tmod26_emod (a * ((c : Int) - 97) + b)
  have hn := Int.emod_nonneg (a * ((c : Int) - 97) + b) (by norm_num : (26 : Int) ≠ 0)
  have hl := Int.emod_lt_of_pos (a * ((c : Int) - 97) + b) (by norm_num : (0 : Int) < 26)
  simp only [affineEncChar, halpha, hupper, if_true, if_false, Bool.false_eq_true]
  split <;> omega

lemma affineEncChar_other (a b : Int) (c : Nat) (h : isalpha c = false) :
    affineEncChar a b c = c := by
  simp only [affineEncChar, h, Bool.false_eq_true, if_false]

lemma affineDecChar_upper (aInv b : Int) (c : Nat) (h1 : 65 ≤ c) (h2 : c ≤ 90) :
    affineDecChar aInv b c = ((aInv * ((c : Int) - 65 - b)) % 26 + 65).toNat := by
  have halpha : isalpha c = true := (isalpha_iff c).mpr (Or.inl ⟨h1, h2⟩)
  have hupper : isupper c = true := (isupper_iff c).mpr ⟨h1, h2⟩
  have hb1 := tmod26_lt (aInv * ((c : Int) - 65 - b))
  have hb2 := tmod26_gt (aInv * ((c : Int) - 65 - b))
  have hem := tmod26_emod (aInv * ((c : Int) - 65 - b))
  have hn := Int.emod_nonneg (aInv * ((c : Int) - 65 - b)) (by norm_num : (26 : Int) ≠ 0)
  have hl := Int.emod_lt_of_pos (aInv * ((c : Int) - 65 - b)) (by norm_num : (0 : Int) < 26)
  simp only [affineDecChar, halpha, hupper, if_true]
  rw [tmod26_nonneg_emod _ (by omega)]
  have : ((aInv * ((c : Int) - 65 - b)).tmod 26 + 26) % 26
      = (aInv * ((c : Int) - 65 - b)) % 26 := by omega
  rw [this]

lemma affineDecChar_lower (aInv b : Int) (c : Nat) (h1 : 97 ≤ c) (h2 : c ≤ 122) :
    affineDecChar aInv b c = ((aInv * ((c : Int) - 97 - b)) % 26 + 97).toNat := by
  have halpha : isalpha c = true := (isalpha_iff c).mpr (Or.inr ⟨h1, h2⟩)
  have hupper : isupper c = false := by
    rw [← Bool.not_eq_true, isupper_iff]; omega
  have hb1 := tmod26_lt (aInv * ((c : Int) - 97 - b))
  have hb2 := tmod26_gt (aInv * ((c : Int) - 97 - b))
  have hem := tmod26_emod (aInv * ((c : Int) - 97 - b))
  have hn := Int.emod_nonneg (aInv * ((c : Int) - 97 - b)) (by norm_num : (26 : Int) ≠ 0)
  have hl := Int.emod_lt_of_pos (aInv * ((c : Int) - 97 - b)) (by norm_num : (0 : Int) < 26)
  simp only [affineDecChar, halpha, hupper, if_true, if_false, Bool.false_eq_true]
  rw [tmod26_nonneg_emod _ (by omega)]
  have : ((aInv * ((c : Int) - 97 - b)).tmod 26 + 26) % 26
      = (aInv * ((c : Int) - 97 - b)) % 26 := by omega
  rw [this]

lemma affineDecChar_other (aInv b : Int) (c : Nat) (h : isalpha c = false) :
    affineDecChar aInv b c = c := by
  simp only [affineDecChar, h, Bool.false_eq_true, if_false]

lemma affine_mod_cancel (a b aInv P : Int) (hInv : (a * aInv) % 26 = 1)
    (hP0 : 0 ≤ P) (hP1 : P < 26) :
    (aInv * ((a * P + b) % 26 - b)) % 26 = P := by
  have h1 : Int.ModEq 26 ((a * P + b) % 26) (a * P + b) :=
    Int.emod_emod_of_dvd (a * P + b) dvd_rfl
  have h2 : Int.ModEq 26 (aInv * ((a * P + b) % 26 - b)) (aInv * (a * P + b - b)) :=
    (h1.sub_right b).mul_left aInv
  have h3 : aInv * (a * P + b - b) = (a * aInv) * P := by ring
  have h4 : Int.ModEq 26 (aInv * (a * P + b - b)) P := by
    rw [h3]
    have hm : Int.ModEq 26 (a * aInv) 1 := by
      unfold Int.ModEq; omega
    have := hm.mul_right P
    rwa [one_mul] at this
  have h5 := h2.trans h4
  unfold Int.ModEq at h5
  rw [h5, Int.emod_eq_of_lt hP0 hP1]

lemma affineChar_roundTrip (a b aInv : Int) (hInv : (a * aInv) % 26 = 1) (c : Nat) :
    affineDecChar aInv b (affineEncChar a b c) = c := by
  by_cases hu : 65 ≤ c ∧ c ≤ 90
  · rw [affineEncChar_upper a b c hu.1 hu.2]
    have hn := Int.emod_nonneg (a * ((c : Int) - 65) + b) (by norm_num : (26 : Int) ≠ 0)
    have hl := Int.emod_lt_of_pos (a * ((c : Int) - 65) + b) (by norm_num : (0 : Int) < 26)
    rw [affineDecChar_upper aInv b _ (by omega) (by omega)]
    have he : ((((a * ((c : Int) - 65) + b) % 26 + 65).toNat : Int)) - 65
        = (a * ((c : Int) - 65) + b) % 26 := by omega
    rw [show (((a * ((c : Int) - 65) + b) % 26 + 65).toNat : Int) - 65 - b
        = (a * ((c : Int) - 65) + b) % 26 - b by omega]
    rw [affine_mod_cancel a b aInv ((c : Int) - 65) hInv (by omega) (by omega)]
    omega
  · by_cases hlo : 97 ≤ c ∧ c ≤ 122
    · rw [affineEncChar_lower a b c hlo.1 hlo.2]
      have hn := Int.emod_nonneg (a * ((c : Int) - 97) + b) (by norm_num : (26 : Int) ≠ 0)
      have hl := Int.emod_lt_of_pos (a * ((c : Int) - 97) + b) (by norm_num : (0 : Int) < 26)
      rw [affineDecChar_lower aInv b _ (by omega) (by omega)]
      rw [show (((a * ((c : Int) - 97) + b) % 26 + 97).toNat : Int) - 97 - b
          = (a * ((c : Int) - 97) + b) % 26 - b by omega]
      rw [affine_mod_cancel a b aInv ((c : Int) - 97) hInv (by omega) (by omega)]
      omega
    · have hna : isalpha c = false := by
        rw [← Bool.not_eq_true, isalpha_iff]; tauto
      rw [affineEncChar_other a b c hna, affineDecChar_other aInv b c hna]

lemma affine_roundTrip (T : List Nat) (a b : Int) (ha : 0 ≤ a)
    (hg : Int.gcd a 26 = 1) :
    ∃ C, encrypt_affine T a b = some C ∧ decrypt_affine C a b = some T := by
  obtain ⟨h1, h2, h3⟩ := modInverse_spec_nonneg a ha hg
  have hne : ¬(modInverse a 26 = -1) := by omega
  refine ⟨T.map (affineEncChar a b), ?_, ?_⟩
  · simp only [encrypt_affine, hne, if_false]
  · simp only [decrypt_affine, hne, if_false, List.map_map]
    congr 1
    have : ∀ c ∈ T, (affineDecChar (modInverse a 26) b ∘ affineEncChar a b) c = c :=
      fun c _ => affineChar_roundTrip a b (modInverse a 26) h3 c
    induction T with
    | nil => rfl
    | cons c rest ih =>
      simp only [List.map_cons, Function.comp_apply,
        affineChar_roundTrip a b (modInverse a 26) h3 c, List.cons.injEq, true_and]
      exact ih (fun x hx => this x (List.mem_cons_of_mem c hx))

/-! ## Vigenere cipher (vigenere.cpp) -/

/-- Number of leading non-alphabetic characters of a list (length of the list
when it has no alphabetic character).  This is how far the C `while` loop
`while (key_idx < key_len && !isalpha(key[key_idx])) key_idx++;` advances. -/
def leadNonAlpha : List Nat → Nat
  | [] => 0
  | c :: rest => if isalpha c then 0 else leadNonAlpha rest + 1

/-- Position reached by the key-scanning `while` loop when started at `idx`. -/
def firstAlphaFrom (key : List Nat) (idx : Nat) : Nat :=
  idx + leadNonAlpha (key.drop idx)

/-- Key-cursor logic shared by `encrypt_vigenere` and `decrypt_vigenere`:
skip non-alphabetic key characters from the cursor, wrap once to the start of
the key, and fail (`none`) when the key has no alphabetic character at all. -/
def nextKeyIdx (key : List Nat) (idx : Nat) : Option Nat :=
  if firstAlphaFrom key idx = key.length then
    if firstAlphaFrom key 0 = key.length then none
    else some (firstAlphaFrom key 0)
  else some (firstAlphaFrom key idx)

/-- Shift extracted from the key character at position `j`:
`toupper(key[key_idx]) - 'A'`. -/
def keyShift (key : List Nat) (j : Nat) : Int :=
  (toupper (key.getD j 0) : Int) - 65

/-- Per-character Vigenere encryption:
`((plain_char - base + shift) % 26) + base`. -/
def vigEncChar (shift : Int) (c : Nat) : Nat :=
  let base : Int := if isupper c then 65 else 97
  (((c : Int) - base + shift).tmod 26 + base).toNat

/-- Per-character Vigenere decryption:
`((cipher_char - base - shift + 26) % 26) + base`. -/
def vigDecChar (shift : Int) (c : Nat) : Nat :=
  let base : Int := if isupper c then 65 else 97
  (((c : Int) - base - shift + 26).tmod 26 + base).toNat

/-- Main loop of `encrypt_vigenere`, threading the key cursor. -/
def encVigGo (key : List Nat) : List Nat → Nat → Option (List Nat)
  | [], _ => some []
  | c :: rest, idx =>
    if isalpha c then
      match nextKeyIdx key idx with
      | none => none
      | some j =>
        match encVigGo key rest (j + 1) with
        | none => none
        | some out => some (vigEncChar (keyShift key j) c :: out)
    else
      match encVigGo key rest idx with
      | none => none
      | some out => some (c :: out)

/-- `encrypt_vigenere` from vigenere.cpp. -/
def encrypt_vigenere (plaintext key : List Nat) : Option (List Nat) :=
  encVigGo key plaintext 0

/-- Main loop of `decrypt_vigenere`, threading the key cursor. -/
def decVigGo (key : List Nat) : List Nat → Nat → Option (List Nat)
  | [], _ => some []
  | c :: rest, idx =>
    if isalpha c then
      match nextKeyIdx key idx with
      | none => none
      | some j =>
        match decVigGo key rest (j + 1) with
        | none => none
        | some out => some (vigDecChar (keyShift key j) c :: out)
    else
      match decVigGo key rest idx with
      | none => none
      | some out => some (c :: out)

/-- `decrypt_vigenere` from vigenere.cpp. -/
def decrypt_vigenere (ciphertext key : List Nat) : Option (List Nat) :=
  decVigGo key ciphertext 0

/-! ## Specification-side Vigenere shift discipline (for refinement claims) -/

/-- Alphabetic characters of the key, in their relative order. -/
def alphaKeyChars (key : List Nat) : List Nat := key.filter (fun c => isalpha c)

/-- Shift that the specification prescribes for the `n`-th alphabetic
plaintext character: the uppercase of the `(n mod k)`-th alphabetic key
character minus `'A'`, where `k` counts the alphabetic key characters. -/
def specVigShift (key : List Nat) (n : Nat) : Int :=
  (toupper ((alphaKeyChars key).getD (n % (alphaKeyChars key).length) 0) : Int) - 65

/-- Specification-side encryption: the `n`-th alphabetic plaintext character
is shifted by `specVigShift key n`; non-letters pass through and do not
advance `n`. -/
def specVigEncGo (key : List Nat) : List Nat → Nat → List Nat
  | [], _ => []
  | c :: rest, n =>
    if isalpha c then vigEncChar (specVigShift key n) c :: specVigEncGo key rest (n + 1)
    else c :: specVigEncGo key rest n

/-- Specification-side Vigenere encryption over a whole text. -/
def specVigEncrypt (plaintext key : List Nat) : List Nat :=
  specVigEncGo key plaintext 0

/-! ## Key-cursor analysis for Vigenere -/

lemma getD_drop (l : List Nat) (i t : Nat) :
    (l.drop i).getD t 0 = l.getD (i + t) 0 := by
  rw [List.getD_eq_getElem?_getD, List.getD_eq_getElem?_getD, List.getElem?_drop]

lemma leadNonAlpha_le (l : List Nat) : leadNonAlpha l ≤ l.length := by
  induction l with
  | nil => simp [leadNonAlpha]
  | cons c rest ih =>
    simp only [leadNonAlpha, List.length_cons]
    split <;> omega

lemma leadNonAlpha_eq_length (l : List Nat)
    (h : l.filter (fun c => isalpha c) = []) : leadNonAlpha l = l.length := by
  induction l with
  | nil => rfl
  | cons c rest ih =>
    rw [List.filter_eq_nil_iff] at h
    have hc : ¬(isalpha c = true) := h c (List.mem_cons_self c rest)
    simp only [leadNonAlpha, List.length_cons, if_neg hc]
    rw [ih (List.filter_eq_nil_iff.mpr (fun a ha => h a (List.mem_cons_of_mem c ha)))]

lemma leadNonAlpha_spec (l : List Nat)
    (h : l.filter (fun c => isalpha c) ≠ []) :
    leadNonAlpha l < l.length ∧
    isalpha (l.getD (leadNonAlpha l) 0) = true ∧
    l.getD (leadNonAlpha l) 0 = (l.filter (fun c => isalpha c)).getD 0 0 ∧
    (l.drop (leadNonAlpha l + 1)).filter (fun c => isalpha c)
      = (l.filter (fun c => isalpha c)).tail := by
  induction l with
  | nil => exact absurd rfl h
  | cons c rest ih =>
    by_cases hc : isalpha c = true
    · have hf : (c :: rest).filter (fun c => isalpha c)
          = c :: rest.filter (fun c => isalpha c) := List.filter_cons_of_pos hc
      simp only [leadNonAlpha, if_pos hc, hf, List.length_cons, List.getD_cons_zero,
        List.drop_succ_cons, List.drop_zero, List.tail_cons]
      refine ⟨by omega, hc, ?_, ?_⟩ <;> trivial
    · have hf : (c :: rest).filter (fun c => isalpha c)
          = rest.filter (fun c => isalpha c) := List.filter_cons_of_neg hc
      rw [hf] at h ⊢
      obtain ⟨ih1, ih2, ih3, ih4⟩ := ih h
      simp only [leadNonAlpha, if_neg hc, List.length_cons, List.getD_cons_succ,
        List.drop_succ_cons]
      exact ⟨by omega, ih2, ih3, ih4⟩

lemma firstAlphaFrom_le (key : List Nat) (idx : Nat) (h : idx ≤ key.length) :
    firstAlphaFrom key idx ≤ key.length := by
  unfold firstAlphaFrom
  have h1 := leadNonAlpha_le (key.drop idx)
  rw [List.length_drop] at h1
  omega

lemma firstAlphaFrom_eq_of_nofilter (key : List Nat) (idx : Nat)
    (hidx : idx ≤ key.length)
    (h : (key.drop idx).filter (fun c => isalpha c) = []) :
    firstAlphaFrom key idx = key.length := by
  unfold firstAlphaFrom
  have h1 := leadNonAlpha_eq_length (key.drop idx) h
  rw [List.length_drop] at h1
  omega

lemma firstAlphaFrom_spec (key : List Nat) (idx : Nat) (hidx : idx ≤ key.length)
    (h : (key.drop idx).filter (fun c => isalpha c) ≠ []) :
    firstAlphaFrom key idx < key.length ∧
    isalpha (key.getD (firstAlphaFrom key idx) 0) = true ∧
    key.getD (firstAlphaFrom key idx) 0
      = ((key.drop idx).filter (fun c => isalpha c)).getD 0 0 ∧
    (key.drop (firstAlphaFrom key idx + 1)).filter (fun c => isalpha c)
      = ((key.drop idx).filter (fun c => isalpha c)).tail := by
  obtain ⟨h1, h2, h3, h4⟩ := leadNonAlpha_spec (key.drop idx) h
  rw [List.length_drop] at h1
  have hget : key.getD (firstAlphaFrom key idx) 0
      = (key.drop idx).getD (leadNonAlpha (key.drop idx)) 0 :=
    (getD_drop key idx (leadNonAlpha (key.drop idx))).symm
  have hidx2 : firstAlphaFrom key idx + 1
      = idx + (leadNonAlpha (key.drop idx) + 1) := by
    unfold firstAlphaFrom
    omega
  have hdrop : key.drop (firstAlphaFrom key idx + 1)
      = (key.drop idx).drop (leadNonAlpha (key.drop idx) + 1) := by
    rw [hidx2, ← List.drop_drop]
  refine ⟨by unfold firstAlphaFrom; omega, ?_, ?_, ?_⟩
  · rw [hget]
    exact h2
  · rw [hget]
    exact h3
  · rw [hdrop]
    exact h4

/-- Invariant tying the C key cursor `idx` to the spec-side counter `n`:
the alphabetic characters still ahead of the cursor are a suffix of the
alphabetic key characters starting at a rank congruent to `n`. -/
def VigInv (key : List Nat) (idx n : Nat) : Prop :=
  idx ≤ key.length ∧
  ∃ m, m ≤ (alphaKeyChars key).length ∧
    m % (alphaKeyChars key).length = n % (alphaKeyChars key).length ∧
    (key.drop idx).filter (fun c => isalpha c) = (alphaKeyChars key).drop m

lemma vigInv_init (key : List Nat) : VigInv key 0 0 := by
  refine ⟨Nat.zero_le _, 0, Nat.zero_le _, rfl, ?_⟩
  rw [List.drop_zero, List.drop]
  rfl

lemma nextKeyIdx_spec (key : List Nat) (hk : alphaKeyChars key ≠ []) (idx n : Nat)
    (hinv : VigInv key idx n) :
    ∃ j, nextKeyIdx key idx = some j ∧ j < key.length ∧
      isalpha (key.getD j 0) = true ∧
      key.getD j 0 = (alphaKeyChars key).getD (n % (alphaKeyChars key).length) 0 ∧
      VigInv key (j + 1) (n + 1) := by
  obtain ⟨hidx, m, hm1, hm2, hfilt⟩ := hinv
  have hk0 : 0 < (alphaKeyChars key).length := List.length_pos.mpr hk
  by_cases hm : m < (alphaKeyChars key).length
  · have hne : (key.drop idx).filter (fun c => isalpha c) ≠ [] := by
      rw [hfilt]
      intro hcon
      rw [List.drop_eq_nil_iff] at hcon
      omega
    obtain ⟨s1, s2, s3, s4⟩ := firstAlphaFrom_spec key idx hidx hne
    have hmn : m = n % (alphaKeyChars key).length := by
      rw [← hm2, Nat.mod_eq_of_lt hm]
    refine ⟨firstAlphaFrom key idx, ?_, s1, s2, ?_, ?_⟩
    · unfold nextKeyIdx
      rw [if_neg (by omega)]
    · rw [s3, hfilt, getD_drop (alphaKeyChars key) m 0, Nat.add_zero, hmn]
    · refine ⟨by omega, m + 1, by omega, Nat.ModEq.add_right 1 hm2, ?_⟩
      rw [s4, hfilt, List.tail_drop]
  · have hmeq : m = (alphaKeyChars key).length := by omega
    have hfilt2 : (key.drop idx).filter (fun c => isalpha c) = [] := by
      rw [hfilt, hmeq, List.drop_length]
    have hj1 : firstAlphaFrom key idx = key.length :=
      firstAlphaFrom_eq_of_nofilter key idx hidx hfilt2
    have hne : (key.drop 0).filter (fun c => isalpha c) ≠ [] := by
      rw [List.drop_zero]
      exact hk
    obtain ⟨s1, s2, s3, s4⟩ := firstAlphaFrom_spec key 0 (Nat.zero_le _) hne
    have hn0 : n % (alphaKeyChars key).length = 0 := by
      rw [← hm2, hmeq, Nat.mod_self]
    refine ⟨firstAlphaFrom key 0, ?_, s1, s2, ?_, ?_⟩
    · unfold nextKeyIdx
      rw [if_pos hj1, if_neg (by omega)]
    · rw [s3, List.drop_zero, hn0]
      rfl
    · refine ⟨by omega, 1, by omega, ?_, ?_⟩
      · have h0 : Nat.ModEq (alphaKeyChars key).length n 0 := by
          unfold Nat.ModEq
          rw [hn0, Nat.zero_mod]
        have h1 := (h0.add_right 1).symm
        simpa using h1
      · rw [s4, List.drop_zero, List.drop_one]
        rfl

lemma nextKeyIdx_some_facts (key : List Nat) (idx j : Nat) (hidx : idx ≤ key.length)
    (h : nextKeyIdx key idx = some j) :
    j < key.length ∧ isalpha (key.getD j 0) = true := by
  unfold nextKeyIdx at h
  by_cases h1 : firstAlphaFrom key idx = key.length
  · rw [if_pos h1] at h
    by_cases h2 : firstAlphaFrom key 0 = key.length
    · rw [if_pos h2] at h
      exact absurd h (by simp)
    · rw [if_neg h2] at h
      have hne : (key.drop 0).filter (fun c => isalpha c) ≠ [] := by
        intro hcon
        exact h2 (firstAlphaFrom_eq_of_nofilter key 0 (Nat.zero_le _) hcon)
      obtain ⟨s1, s2, -, -⟩ := firstAlphaFrom_spec key 0 (Nat.zero_le _) hne
      cases h
      exact ⟨s1, s2⟩
  · rw [if_neg h1] at h
    have hne : (key.drop idx).filter (fun c => isalpha c) ≠ [] := by
      intro hcon
      exact h1 (firstAlphaFrom_eq_of_nofilter key idx hidx hcon)
    obtain ⟨s1, s2, -, -⟩ := firstAlphaFrom_spec key idx hidx hne
    cases h
    exact ⟨s1, s2⟩

/-! ## Per-character facts for Vigenere -/

lemma toupper_range (c : Nat) (h : isalpha c = true) :
    65 ≤ toupper c ∧ toupper c ≤ 90 := by
  rw [isalpha_iff] at h
  unfold toupper
  by_cases hl : islower c = true
  · rw [if_pos hl]
    rw [islower_iff] at hl
    omega
  · rw [if_neg hl]
    rw [islower_iff] at hl
    omega

lemma keyShift_range (key : List Nat) (j : Nat)
    (h : isalpha (key.getD j 0) = true) :
    0 ≤ keyShift key j ∧ keyShift key j < 26 := by
  obtain ⟨h1, h2⟩ := toupper_range (key.getD j 0) h
  unfold keyShift
  omega

lemma vigEncChar_upper (shift : Int) (hs : 0 ≤ shift) (c : Nat)
    (h1 : 65 ≤ c) (h2 : c ≤ 90) :
    vigEncChar shift c = (((c : Int) - 65 + shift) % 26 + 65).toNat := by
  have hupper : isupper c = true := (isupper_iff c).mpr ⟨h1, h2⟩
  simp only [vigEncChar, hupper, if_true]
  rw [tmod26_nonneg_emod _ (by omega)]

lemma vigEncChar_lower (shift : Int) (hs : 0 ≤ shift) (c : Nat)
    (h1 : 97 ≤ c) (h2 : c ≤ 122) :
    vigEncChar shift c = (((c : Int) - 97 + shift) % 26 + 97).toNat := by
  have hupper : isupper c = false := by
    rw [← Bool.not_eq_true, isupper_iff]; omega
  simp only [vigEncChar, hupper, Bool.false_eq_true, if_false]
  rw [tmod26_nonneg_emod _ (by omega)]

lemma vigDecChar_upper (shift : Int) (hs0 : 0 ≤ shift) (hs1 : shift < 26) (c : Nat)
    (h1 : 65 ≤ c) (h2 : c ≤ 90) :
    vigDecChar shift c = (((c : Int) - 65 - shift + 26) % 26 + 65).toNat := by
  have hupper : isupper c = true := (isupper_iff c).mpr ⟨h1, h2⟩
  simp only [vigDecChar, hupper, if_true]
  rw [tmod26_nonneg_emod _ (by omega)]

lemma vigDecChar_lower (shift : Int) (hs0 : 0 ≤ shift) (hs1 : shift < 26) (c : Nat)
    (h1 : 97 ≤ c) (h2 : c ≤ 122) :
    vigDecChar shift c = (((c : Int) - 97 - shift + 26) % 26 + 97).toNat := by
  have hupper : isupper c = false := by
    rw [← Bool.not_eq_true, isupper_iff]; omega
  simp only [vigDecChar, hupper, Bool.false_eq_true, if_false]
  rw [tmod26_nonneg_emod _ (by omega)]

lemma vigChar_roundTrip (shift : Int) (hs0 : 0 ≤ shift) (hs1 : shift < 26)
    (c : Nat) (hc : isalpha c = true) :
    vigDecChar shift (vigEncChar shift c) = c ∧
    isalpha (vigEncChar shift c) = true := by
  rw [isalpha_iff] at hc
  rcases hc with h | h
  · rw [vigEncChar_upper shift hs0 c h.1 h.2]
    have hn := Int.emod_nonneg ((c : Int) - 65 + shift) (by norm_num : (26 : Int) ≠ 0)
    have hl := Int.emod_lt_of_pos ((c : Int) - 65 + shift) (by norm_num : (0 : Int) < 26)
    constructor
    · rw [vigDecChar_upper shift hs0 hs1 _ (by omega) (by omega)]
      have hn2 := Int.emod_nonneg
        (((((c : Int) - 65 + shift) % 26 + 65).toNat : Int) - 65 - shift + 26)
        (by norm_num : (26 : Int) ≠ 0)
      have hl2 := Int.emod_lt_of_pos
        (((((c : Int) - 65 + shift) % 26 + 65).toNat : Int) - 65 - shift + 26)
        (by norm_num : (0 : Int) < 26)
      omega
    · rw [isalpha_iff]
      left
      omega
  · rw [vigEncChar_lower shift hs0 c h.1 h.2]
    have hn := Int.emod_nonneg ((c : Int) - 97 + shift) (by norm_num : (26 : Int) ≠ 0)
    have hl := Int.emod_lt_of_pos ((c : Int) - 97 + shift) (by norm_num : (0 : Int) < 26)
    constructor
    · rw [vigDecChar_lower shift hs0 hs1 _ (by omega) (by omega)]
      have hn2 := Int.emod_nonneg
        (((((c : Int) - 97 + shift) % 26 + 97).toNat : Int) - 97 - shift + 26)
        (by norm_num : (26 : Int) ≠ 0)
      have hl2 := Int.emod_lt_of_pos
        (((((c : Int) - 97 + shift) % 26 + 97).toNat : Int) - 97 - shift + 26)
        (by norm_num : (0 : Int) < 26)
      omega
    · rw [isalpha_iff]
      right
      omega

/-! ## Main Vigenere lemmas -/

lemma encVigGo_spec (key : List Nat) (hk : alphaKeyChars key ≠ []) :
    ∀ (text : List Nat) (idx n : Nat), VigInv key idx n →
      encVigGo key text idx = some (specVigEncGo key text n) := by
  intro text
  induction text with
  | nil => intro idx n _; rfl
  | cons c rest ih =>
    intro idx n hinv
    by_cases hc : isalpha c = true
    · obtain ⟨j, hj, hjlt, hjalpha, hjget, hinv'⟩ := nextKeyIdx_spec key hk idx n hinv
      have hshift : keyShift key j = specVigShift key n := by
        unfold keyShift specVigShift
        rw [hjget]
      simp only [encVigGo, specVigEncGo, hc, if_true, hj, ih (j + 1) (n + 1) hinv',
        hshift]
    · simp only [encVigGo, specVigEncGo, hc, Bool.false_eq_true, if_false,
        ih idx n hinv]

lemma decVigGo_encVigGo (key : List Nat) :
    ∀ (text out : List Nat) (idx : Nat), idx ≤ key.length →
      encVigGo key text idx = some out → decVigGo key out idx = some text := by
  intro text
  induction text with
  | nil =>
    intro out idx _ h
    simp only [encVigGo, Option.some.injEq] at h
    subst h
    rfl
  | cons c rest ih =>
    intro out idx hidx h
    by_cases hc : isalpha c = true
    · simp only [encVigGo, hc, if_true] at h
      cases hnk : nextKeyIdx key idx with
      | none => rw [hnk] at h; simp at h
      | some j =>
        simp only [hnk] at h
        cases henc : encVigGo key rest (j + 1) with
        | none => simp only [henc] at h; exact absurd h (by simp)
        | some out' =>
          simp only [henc, Option.some.injEq] at h
          subst h
          obtain ⟨hjlt, hjalpha⟩ := nextKeyIdx_some_facts key idx j hidx hnk
          obtain ⟨hs0, hs1⟩ := keyShift_range key j hjalpha
          obtain ⟨hrt, halpha⟩ := vigChar_roundTrip (keyShift key j) hs0 hs1 c hc
          simp only [decVigGo, halpha, if_true, hnk,
            ih out' (j + 1) (by omega) henc, hrt]
    · simp only [encVigGo, hc, Bool.false_eq_true, if_false] at h
      cases henc : encVigGo key rest idx with
      | none => rw [henc] at h; simp at h
      | some out' =>
        rw [henc] at h
        simp only [Option.some.injEq] at h
        subst h
        simp only [decVigGo, hc, Bool.false_eq_true, if_false,
          ih out' idx hidx henc]

lemma vigenere_roundTrip (T K : List Nat) (hk : alphaKeyChars K ≠ []) :
    ∃ C, encrypt_vigenere T K = some C ∧ decrypt_vigenere C K = some T := by
  have henc := encVigGo_spec K hk T 0 0 (vigInv_init K)
  exact ⟨specVigEncGo K T 0, henc,
    decVigGo_encVigGo K T (specVigEncGo K T 0) 0 (Nat.zero_le _) henc⟩

lemma encVigGo_badkey (key : List Nat) (hk : alphaKeyChars key = []) :
    ∀ (text : List Nat) (idx : Nat), idx ≤ key.length →
      0 < text.countP (fun c => isalpha c) → encVigGo key text idx = none := by
  have hnofilt : ∀ idx, (key.drop idx).filter (fun c => isalpha c) = [] := by
    intro idx
    rw [List.filter_eq_nil_iff]
    intro a ha
    have := (List.filter_eq_nil_iff.mp hk) a (List.mem_of_mem_drop ha)
    exact this
  intro text
  induction text with
  | nil => intro idx _ hcount; simp at hcount
  | cons c rest ih =>
    intro idx hidx hcount
    by_cases hc : isalpha c = true
    · have hnone : nextKeyIdx key idx = none := by
        unfold nextKeyIdx
        rw [if_pos (firstAlphaFrom_eq_of_nofilter key idx hidx (hnofilt idx)),
          if_pos (firstAlphaFrom_eq_of_nofilter key 0 (Nat.zero_le _) (hnofilt 0))]
      simp only [encVigGo, hc, if_true, hnone]
    · have hcount' : 0 < rest.countP (fun c => isalpha c) := by
        rw [List.countP_cons_of_neg _ _ hc] at hcount
        exact hcount
      simp only [encVigGo, hc, Bool.false_eq_true, if_false,
        ih idx hidx hcount']

lemma decVigGo_badkey (key : List Nat) (hk : alphaKeyChars key = []) :
    ∀ (text : List Nat) (idx : Nat), idx ≤ key.length →
      0 < text.countP (fun c => isalpha c) → decVigGo key text idx = none := by
  have hnofilt : ∀ idx, (key.drop idx).filter (fun c => isalpha c) = [] := by
    intro idx
    rw [List.filter_eq_nil_iff]
    intro a ha
    exact (List.filter_eq_nil_iff.mp hk) a (List.mem_of_mem_drop ha)
  intro text
  induction text with
  | nil => intro idx _ hcount; simp at hcount
  | cons c rest ih =>
    intro idx hidx hcount
    by_cases hc : isalpha c = true
    · have hnone : nextKeyIdx key idx = none := by
        unfold nextKeyIdx
        rw [if_pos (firstAlphaFrom_eq_of_nofilter key idx hidx (hnofilt idx)),
          if_pos (firstAlphaFrom_eq_of_nofilter key 0 (Nat.zero_le _) (hnofilt 0))]
      simp only [decVigGo, hc, if_true, hnone]
    · have hcount' : 0 < rest.countP (fun c => isalpha c) := by
        rw [List.countP_cons_of_neg _ _ hc] at hcount
        exact hcount
      simp only [decVigGo, hc, Bool.false_eq_true, if_false,
        ih idx hidx hcount']

/-! ## Hill cipher (aes.cpp) -/

/-- The 2x2 integer key matrix of the Hill cipher (`Matrix2x2` in aes.cpp). -/
structure Matrix2x2 where
  m00 : Int
  m01 : Int
  m10 : Int
  m11 : Int
deriving DecidableEq

/-- Determinant of the key, reduced as in the C code:
`det = (...) % 26; if (det < 0) det += 26;`. -/
def hillDetNorm (K : Matrix2x2) : Int :=
  let det := (K.m00 * K.m11 - K.m01 * K.m10).tmod 26
  if det < 0 then det + 26 else det

/-- Preprocessing in `encrypt_hill`: keep only alphabetic characters,
uppercase them, and append one `'X'` (88) when their number is odd. -/
def processedPlaintext (plaintext : List Nat) : List Nat :=
  let letters := (plaintext.filter (fun c => isalpha c)).map (fun c => toupper c)
  if letters.length % 2 = 1 then letters ++ [88] else letters

/-- Block loop of `encrypt_hill`: each pair `(p1,p2)` of letter values is
mapped through the key matrix modulo 26 and re-based at `'A'`. -/
def hillEncBlocks (K : Matrix2x2) : List Nat → List Nat
  | p1 :: p2 :: rest =>
    ((K.m00 * ((p1 : Int) - 65) + K.m01 * ((p2 : Int) - 65)).tmod 26 + 65).toNat ::
    ((K.m10 * ((p1 : Int) - 65) + K.m11 * ((p2 : Int) - 65)).tmod 26 + 65).toNat ::
    hillEncBlocks K rest
  | l => l

/-- `encrypt_hill` from aes.cpp; `none` models the `NULL` return
(NonInvertibleKey). -/
def encrypt_hill (plaintext : List Nat) (K : Matrix2x2) : Option (List Nat) :=
  if hillDetNorm K = 0 ∨ (hillDetNorm K).tmod 2 = 0 ∨ (hillDetNorm K).tmod 13 = 0
  then none
  else some (hillEncBlocks K (processedPlaintext plaintext))

/-- Error signals of `decrypt_hill`. -/
inductive HillError where
  | oddLength
  | nonInvertibleKey
deriving DecidableEq

/-- Inverse key matrix built by `decrypt_hill`: adjugate scaled by the
determinant inverse, each entry reduced by `%` and made non-negative. -/
def hillInvKey (K : Matrix2x2) (detInv : Int) : Matrix2x2 where
  m00 := if (K.m11 * detInv).tmod 26 < 0 then (K.m11 * detInv).tmod 26 + 26
         else (K.m11 * detInv).tmod 26
  m01 := if (-K.m01 * detInv).tmod 26 < 0 then (-K.m01 * detInv).tmod 26 + 26
         else (-K.m01 * detInv).tmod 26
  m10 := if (-K.m10 * detInv).tmod 26 < 0 then (-K.m10 * detInv).tmod 26 + 26
         else (-K.m10 * detInv).tmod 26
  m11 := if (K.m00 * detInv).tmod 26 < 0 then (K.m00 * detInv).tmod 26 + 26
         else (K.m00 * detInv).tmod 26

/-- Block loop of `decrypt_hill`. -/
def hillDecBlocks (Kinv : Matrix2x2) : List Nat → List Nat
  | c1 :: c2 :: rest =>
    ((Kinv.m00 * ((c1 : Int) - 65) + Kinv.m01 * ((c2 : Int) - 65)).tmod 26 + 65).toNat ::
    ((Kinv.m10 * ((c1 : Int) - 65) + Kinv.m11 * ((c2 : Int) - 65)).tmod 26 + 65).toNat ::
    hillDecBlocks Kinv rest
  | l => l

/-- `decrypt_hill` from aes.cpp: odd-length check first, then determinant
inversion, then the inverse block transform (applied to every character,
with no check that the characters are uppercase letters). -/
def decrypt_hill (ciphertext : List Nat) (K : Matrix2x2) : Except HillError (List Nat) :=
  if ciphertext.length % 2 ≠ 0 then Except.error HillError.oddLength
  else if modInverse (hillDetNorm K) 26 = -1 then Except.error HillError.nonInvertibleKey
  else Except.ok (hillDecBlocks (hillInvKey K (modInverse (hillDetNorm K) 26)) ciphertext)

/-! ## Index of coincidence (aes.cpp) -/

/-- Number of occurrences of letter `i` (0-based, case-folded) counted by the
loop in `calculate_ic`. -/
def icCount (text : List Nat) (i : Nat) : Nat :=
  text.countP (fun c => isalpha c && toupper c == 65 + i)

/-- Number of alphabetic characters of a text (`total_alpha_chars`). -/
def alphaCount (text : List Nat) : Nat :=
  text.countP (fun c => isalpha c)

/-- `calculate_ic` from aes.cpp, with C doubles embedded as exact rationals:
`Σ n_i (n_i - 1) / (N (N - 1))`, and `0` when fewer than two letters. -/
def calculate_ic (text : List Nat) : ℚ :=
  if alphaCount text < 2 then 0
  else (∑ i ∈ Finset.range 26, (icCount text i : ℚ) * ((icCount text i : ℚ) - 1))
    / ((alphaCount text : ℚ) * ((alphaCount text : ℚ) - 1))

/-! ## Hill cipher lemmas -/

lemma normPos_facts (v : Int) :
    0 ≤ (if v.tmod 26 < 0 then v.tmod 26 + 26 else v.tmod 26) ∧
    (if v.tmod 26 < 0 then v.tmod 26 + 26 else v.tmod 26) < 26 ∧
    (if v.tmod 26 < 0 then v.tmod 26 + 26 else v.tmod 26) % 26 = v % 26 := by
  have h1 := tmod26_lt v
  have h2 := tmod26_gt v
  have h3 := tmod26_emod v
  split <;> exact ⟨by omega, by omega, by omega⟩

lemma hillDetNorm_range (K : Matrix2x2) :
    0 ≤ hillDetNorm K ∧ hillDetNorm K < 26 := by
  simp only [hillDetNorm]
  have h1 := tmod26_lt (K.m00 * K.m11 - K.m01 * K.m10)
  have h2 := tmod26_gt (K.m00 * K.m11 - K.m01 * K.m10)
  split <;> omega

lemma hillDetNorm_emod (K : Matrix2x2) :
    hillDetNorm K % 26 = (K.m00 * K.m11 - K.m01 * K.m10) % 26 := by
  simp only [hillDetNorm]
  have h := tmod26_emod (K.m00 * K.m11 - K.m01 * K.m10)
  split
  · omega
  · simpa using h

lemma det_cond_iff (d : Int) (h0 : 0 ≤ d) (h1 : d < 26) :
    (d = 0 ∨ d.tmod 2 = 0 ∨ d.tmod 13 = 0) ↔ Int.gcd d 26 ≠ 1 := by
  rw [Int.tmod_eq_emod h0 (by norm_num), Int.tmod_eq_emod h0 (by norm_num)]
  interval_cases d <;> decide

lemma encrypt_hill_ok (T : List Nat) (K : Matrix2x2)
    (h : Int.gcd (hillDetNorm K) 26 = 1) :
    encrypt_hill T K = some (hillEncBlocks K (processedPlaintext T)) := by
  unfold encrypt_hill
  rw [if_neg]
  obtain ⟨h0, h1⟩ := hillDetNorm_range K
  rw [det_cond_iff (hillDetNorm K) h0 h1]
  simp [h]

lemma encrypt_hill_none_iff (T : List Nat) (K : Matrix2x2) :
    encrypt_hill T K = none ↔ Int.gcd (hillDetNorm K) 26 ≠ 1 := by
  obtain ⟨h0, h1⟩ := hillDetNorm_range K
  unfold encrypt_hill
  rw [← det_cond_iff (hillDetNorm K) h0 h1]
  split
  · simp_all
  · simp_all

lemma processedPlaintext_upper (T : List Nat) :
    ∀ c ∈ processedPlaintext T, 65 ≤ c ∧ c ≤ 90 := by
  intro c hc
  simp only [processedPlaintext] at hc
  have hmem : c ∈ ((T.filter (fun c => isalpha c)).map (fun c => toupper c))
      ∨ c = 88 := by
    split at hc
    · rcases List.mem_append.mp hc with h | h
      · exact Or.inl h
      · simp at h
        exact Or.inr h
    · exact Or.inl hc
  rcases hmem with h | h
  · obtain ⟨c', hc', rfl⟩ := List.mem_map.mp h
    exact toupper_range c' (List.mem_filter.mp hc').2
  · omega

lemma processedPlaintext_even (T : List Nat) :
    (processedPlaintext T).length % 2 = 0 := by
  simp only [processedPlaintext]
  split
  · rename_i h
    rw [List.length_append, List.length_singleton]
    omega
  · rename_i h
    omega

lemma decrypt_hill_ok (C : List Nat) (K : Matrix2x2) (hlen : C.length % 2 = 0)
    (h : Int.gcd (hillDetNorm K) 26 = 1) :
    decrypt_hill C K
      = Except.ok (hillDecBlocks (hillInvKey K (modInverse (hillDetNorm K) 26)) C) := by
  obtain ⟨hd0, hd1⟩ := hillDetNorm_range K
  obtain ⟨hi1, hi2, hi3⟩ := modInverse_spec_nonneg (hillDetNorm K) hd0 h
  unfold decrypt_hill
  rw [if_neg (by omega), if_neg (by omega)]


lemma hill_block_value1 (i00 i01 m00k m01k m10k m11k detInv det p1 p2 : Int)
    (hi00m : i00 % 26 = (m11k * detInv) % 26)
    (hi01m : i01 % 26 = (-m01k * detInv) % 26)
    (hdet : det % 26 = (m00k * m11k - m01k * m10k) % 26)
    (hdi : (det * detInv) % 26 = 1) :
    (i00 * ((m00k * p1 + m01k * p2) % 26) + i01 * ((m10k * p1 + m11k * p2) % 26)) % 26
      = p1 % 26 := by
  have hc1 : Int.ModEq 26 ((m00k * p1 + m01k * p2) % 26) (m00k * p1 + m01k * p2) :=
    Int.emod_emod_of_dvd _ dvd_rfl
  have hc2 : Int.ModEq 26 ((m10k * p1 + m11k * p2) % 26) (m10k * p1 + m11k * p2) :=
    Int.emod_emod_of_dvd _ dvd_rfl
  have hi00 : Int.ModEq 26 i00 (m11k * detInv) := hi00m
  have hi01 : Int.ModEq 26 i01 (-m01k * detInv) := hi01m
  have hsum : Int.ModEq 26
      (i00 * ((m00k * p1 + m01k * p2) % 26) + i01 * ((m10k * p1 + m11k * p2) % 26))
      ((m11k * detInv) * (m00k * p1 + m01k * p2)
        + (-m01k * detInv) * (m10k * p1 + m11k * p2)) :=
    (hi00.mul hc1).add (hi01.mul hc2)
  have hring : (m11k * detInv) * (m00k * p1 + m01k * p2)
      + (-m01k * detInv) * (m10k * p1 + m11k * p2)
      = ((m00k * m11k - m01k * m10k) * detInv) * p1 := by ring
  have hdm : Int.ModEq 26 ((m00k * m11k - m01k * m10k) * detInv) (det * detInv) :=
    Int.ModEq.mul_right detInv (Int.ModEq.symm hdet)
  have hone : Int.ModEq 26 (det * detInv) 1 := by
    unfold Int.ModEq
    omega
  have hfin : Int.ModEq 26 (((m00k * m11k - m01k * m10k) * detInv) * p1) p1 := by
    have := (hdm.trans hone).mul_right p1
    rwa [one_mul] at this
  exact hsum.trans (hring ▸ hfin)

lemma hill_block_value2 (i10 i11 m00k m01k m10k m11k detInv det p1 p2 : Int)
    (hi10m : i10 % 26 = (-m10k * detInv) % 26)
    (hi11m : i11 % 26 = (m00k * detInv) % 26)
    (hdet : det % 26 = (m00k * m11k - m01k * m10k) % 26)
    (hdi : (det * detInv) % 26 = 1) :
    (i10 * ((m00k * p1 + m01k * p2) % 26) + i11 * ((m10k * p1 + m11k * p2) % 26)) % 26
      = p2 % 26 := by
  have hc1 : Int.ModEq 26 ((m00k * p1 + m01k * p2) % 26) (m00k * p1 + m01k * p2) :=
    Int.emod_emod_of_dvd _ dvd_rfl
  have hc2 : Int.ModEq 26 ((m10k * p1 + m11k * p2) % 26) (m10k * p1 + m11k * p2) :=
    Int.emod_emod_of_dvd _ dvd_rfl
  have hi10 : Int.ModEq 26 i10 (-m10k * detInv) := hi10m
  have hi11 : Int.ModEq 26 i11 (m00k * detInv) := hi11m
  have hsum : Int.ModEq 26
      (i10 * ((m00k * p1 + m01k * p2) % 26) + i11 * ((m10k * p1 + m11k * p2) % 26))
      ((-m10k * detInv) * (m00k * p1 + m01k * p2)
        + (m00k * detInv) * (m10k * p1 + m11k * p2)) :=
    (hi10.mul hc1).add (hi11.mul hc2)
  have hring : (-m10k * detInv) * (m00k * p1 + m01k * p2)
      + (m00k * detInv) * (m10k * p1 + m11k * p2)
      = ((m00k * m11k - m01k * m10k) * detInv) * p2 := by ring
  have hdm : Int.ModEq 26 ((m00k * m11k - m01k * m10k) * detInv) (det * detInv) :=
    Int.ModEq.mul_right detInv (Int.ModEq.symm hdet)
  have hone : Int.ModEq 26 (det * detInv) 1 := by
    unfold Int.ModEq
    omega
  have hfin : Int.ModEq 26 (((m00k * m11k - m01k * m10k) * detInv) * p2) p2 := by
    have := (hdm.trans hone).mul_right p2
    rwa [one_mul] at this
  exact hsum.trans (hring ▸ hfin)

lemma hillEncBlocks_length (K : Matrix2x2) (l : List Nat) :
    (hillEncBlocks K l).length = l.length := by
  induction l using hillEncBlocks.induct K with
  | case1 p1 p2 rest ih => simp only [hillEncBlocks, List.length_cons, ih]
  | case2 l h =>
    rcases l with _ | ⟨a, _ | ⟨b, rest⟩⟩
    · rfl
    · rfl
    · exact absurd rfl (h a b rest)

lemma hillDecBlocks_length (Kinv : Matrix2x2) (l : List Nat) :
    (hillDecBlocks Kinv l).length = l.length := by
  induction l using hillDecBlocks.induct Kinv with
  | case1 c1 c2 rest ih => simp only [hillDecBlocks, List.length_cons, ih]
  | case2 l h =>
    rcases l with _ | ⟨a, _ | ⟨b, rest⟩⟩
    · rfl
    · rfl
    · exact absurd rfl (h a b rest)

lemma hill_dec_enc_blocks (K : Matrix2x2) (detInv : Int)
    (h00 : 0 ≤ K.m00) (h01 : 0 ≤ K.m01) (h10 : 0 ≤ K.m10) (h11 : 0 ≤ K.m11)
    (hdi : (hillDetNorm K * detInv) % 26 = 1) :
    ∀ (l : List Nat), (∀ c ∈ l, 65 ≤ c ∧ c ≤ 90) →
      hillDecBlocks (hillInvKey K detInv) (hillEncBlocks K l) = l := by
  obtain ⟨g00a, g00b, g00c⟩ := normPos_facts (K.m11 * detInv)
  obtain ⟨g01a, g01b, g01c⟩ := normPos_facts (-K.m01 * detInv)
  obtain ⟨g10a, g10b, g10c⟩ := normPos_facts (-K.m10 * detInv)
  obtain ⟨g11a, g11b, g11c⟩ := normPos_facts (K.m00 * detInv)
  have e00 : (hillInvKey K detInv).m00
      = (if (K.m11 * detInv).tmod 26 < 0 then (K.m11 * detInv).tmod 26 + 26
         else (K.m11 * detInv).tmod 26) := rfl
  have e01 : (hillInvKey K detInv).m01
      = (if (-K.m01 * detInv).tmod 26 < 0 then (-K.m01 * detInv).tmod 26 + 26
         else (-K.m01 * detInv).tmod 26) := rfl
  have e10 : (hillInvKey K detInv).m10
      = (if (-K.m10 * detInv).tmod 26 < 0 then (-K.m10 * detInv).tmod 26 + 26
         else (-K.m10 * detInv).tmod 26) := rfl
  have e11 : (hillInvKey K detInv).m11
      = (if (K.m00 * detInv).tmod 26 < 0 then (K.m00 * detInv).tmod 26 + 26
         else (K.m00 * detInv).tmod 26) := rfl
  rw [← e00] at g00a g00b g00c
  rw [← e01] at g01a g01b g01c
  rw [← e10] at g10a g10b g10c
  rw [← e11] at g11a g11b g11c
  intro l
  induction l using hillEncBlocks.induct K with
  | case2 l h =>
    rcases l with _ | ⟨a, _ | ⟨b, rest⟩⟩
    · intro _; rfl
    · intro _; rfl
    · exact absurd rfl (h a b rest)
  | case1 p1c p2c rest ih =>
    intro hmem
    have hp1 := hmem p1c (by simp)
    have hp2 := hmem p2c (by simp)
    have hX1 : 0 ≤ K.m00 * ((p1c : Int) - 65) + K.m01 * ((p2c : Int) - 65) := by
      have l1 := mul_nonneg h00 (show (0 : Int) ≤ (p1c : Int) - 65 by omega)
      have l2 := mul_nonneg h01 (show (0 : Int) ≤ (p2c : Int) - 65 by omega)
      omega
    have hX2 : 0 ≤ K.m10 * ((p1c : Int) - 65) + K.m11 * ((p2c : Int) - 65) := by
      have l1 := mul_nonneg h10 (show (0 : Int) ≤ (p1c : Int) - 65 by omega)
      have l2 := mul_nonneg h11 (show (0 : Int) ≤ (p2c : Int) - 65 by omega)
      omega
    have he1 := tmod26_nonneg_emod _ hX1
    have he2 := tmod26_nonneg_emod _ hX2
    have hc1n := Int.emod_nonneg (K.m00 * ((p1c : Int) - 65) + K.m01 * ((p2c : Int) - 65))
      (by norm_num : (26 : Int) ≠ 0)
    have hc1l := Int.emod_lt_of_pos (K.m00 * ((p1c : Int) - 65) + K.m01 * ((p2c : Int) - 65))
      (by norm_num : (0 : Int) < 26)
    have hc2n := Int.emod_nonneg (K.m10 * ((p1c : Int) - 65) + K.m11 * ((p2c : Int) - 65))
      (by norm_num : (26 : Int) ≠ 0)
    have hc2l := Int.emod_lt_of_pos (K.m10 * ((p1c : Int) - 65) + K.m11 * ((p2c : Int) - 65))
      (by norm_num : (0 : Int) < 26)
    simp only [hillEncBlocks, hillDecBlocks, he1, he2]
    have hcast1 : ((((K.m00 * ((p1c : Int) - 65) + K.m01 * ((p2c : Int) - 65)) % 26
        + 65).toNat : Int)) - 65
        = (K.m00 * ((p1c : Int) - 65) + K.m01 * ((p2c : Int) - 65)) % 26 := by omega
    have hcast2 : ((((K.m10 * ((p1c : Int) - 65) + K.m11 * ((p2c : Int) - 65)) % 26
        + 65).toNat : Int)) - 65
        = (K.m10 * ((p1c : Int) - 65) + K.m11 * ((p2c : Int) - 65)) % 26 := by omega
    rw [hcast1, hcast2]
    have hv1 := hill_block_value1 (hillInvKey K detInv).m00 (hillInvKey K detInv).m01
      K.m00 K.m01 K.m10 K.m11 detInv (hillDetNorm K)
      ((p1c : Int) - 65) ((p2c : Int) - 65) g00c g01c (hillDetNorm_emod K) hdi
    have hv2 := hill_block_value2 (hillInvKey K detInv).m10 (hillInvKey K detInv).m11
      K.m00 K.m01 K.m10 K.m11 detInv (hillDetNorm K)
      ((p1c : Int) - 65) ((p2c : Int) - 65) g10c g11c (hillDetNorm_emod K) hdi
    have hz1 : 0 ≤ (hillInvKey K detInv).m00
        * ((K.m00 * ((p1c : Int) - 65) + K.m01 * ((p2c : Int) - 65)) % 26)
        + (hillInvKey K detInv).m01
        * ((K.m10 * ((p1c : Int) - 65) + K.m11 * ((p2c : Int) - 65)) % 26) := by
      have l1 := mul_nonneg g00a hc1n
      have l2 := mul_nonneg g01a hc2n
      omega
    have hz2 : 0 ≤ (hillInvKey K detInv).m10
        * ((K.m00 * ((p1c : Int) - 65) + K.m01 * ((p2c : Int) - 65)) % 26)
        + (hillInvKey K detInv).m11
        * ((K.m10 * ((p1c : Int) - 65) + K.m11 * ((p2c : Int) - 65)) % 26) := by
      have l1 := mul_nonneg g10a hc1n
      have l2 := mul_nonneg g11a hc2n
      omega
    rw [tmod26_nonneg_emod _ hz1, tmod26_nonneg_emod _ hz2]
    have hhead1 : (((hillInvKey K detInv).m00
        * ((K.m00 * ((p1c : Int) - 65) + K.m01 * ((p2c : Int) - 65)) % 26)
        + (hillInvKey K detInv).m01
        * ((K.m10 * ((p1c : Int) - 65) + K.m11 * ((p2c : Int) - 65)) % 26)) % 26
        + 65).toNat = p1c := by
      rw [hv1]
      omega
    have hhead2 : (((hillInvKey K detInv).m10
        * ((K.m00 * ((p1c : Int) - 65) + K.m01 * ((p2c : Int) - 65)) % 26)
        + (hillInvKey K detInv).m11
        * ((K.m10 * ((p1c : Int) - 65) + K.m11 * ((p2c : Int) - 65)) % 26)) % 26
        + 65).toNat = p2c := by
      rw [hv2]
      omega
    rw [hhead1, hhead2, ih (fun c hc => hmem c (by simp [hc]))]

lemma hill_roundTrip (T : List Nat) (K : Matrix2x2)
    (h00 : 0 ≤ K.m00) (h01 : 0 ≤ K.m01) (h10 : 0 ≤ K.m10) (h11 : 0 ≤ K.m11)
    (hg : Int.gcd (hillDetNorm K) 26 = 1) :
    ∃ C, encrypt_hill T K = some C
      ∧ decrypt_hill C K = Except.ok (processedPlaintext T) := by
  obtain ⟨hd0, hd1⟩ := hillDetNorm_range K
  obtain ⟨hi1, hi2, hi3⟩ := modInverse_spec_nonneg (hillDetNorm K) hd0 hg
  refine ⟨hillEncBlocks K (processedPlaintext T), encrypt_hill_ok T K hg, ?_⟩
  have hlen : (hillEncBlocks K (processedPlaintext T)).length % 2 = 0 := by
    rw [hillEncBlocks_length]
    exact processedPlaintext_even T
  rw [decrypt_hill_ok _ K hlen hg,
    hill_dec_enc_blocks K (modInverse (hillDetNorm K) 26) h00 h01 h10 h11 hi3
      (processedPlaintext T) (processedPlaintext_upper T)]

/-! ## Index-of-coincidence lemmas -/

lemma countP_replicate (p : Nat → Bool) (n c : Nat) :
    (List.replicate n c).countP p = if p c then n else 0 := by
  induction n with
  | zero => simp
  | succ n ih =>
    rw [List.replicate_succ, List.countP_cons, ih]
    split <;> simp_all

lemma ic_small (text : List Nat) (h : alphaCount text < 2) :
    calculate_ic text = 0 := by
  unfold calculate_ic
  rw [if_pos h]

lemma ic_formula (text : List Nat) (h : 2 ≤ alphaCount text) :
    calculate_ic text
      = (∑ i ∈ Finset.range 26, (icCount text i : ℚ) * ((icCount text i : ℚ) - 1))
        / ((alphaCount text : ℚ) * ((alphaCount text : ℚ) - 1)) := by
  unfold calculate_ic
  rw [if_neg (by omega)]

lemma ic_replicate (c n : Nat) (hc : isalpha c = true) (hn : 2 ≤ n) :
    calculate_ic (List.replicate n c) = 1 := by
  have hN : alphaCount (List.replicate n c) = n := by
    unfold alphaCount
    rw [countP_replicate]
    simp [hc]
  rw [ic_formula _ (by omega)]
  obtain ⟨ht1, ht2⟩ := toupper_range c hc
  have hsum : (∑ i ∈ Finset.range 26,
      (icCount (List.replicate n c) i : ℚ) * ((icCount (List.replicate n c) i : ℚ) - 1))
      = (n : ℚ) * ((n : ℚ) - 1) := by
    rw [Finset.sum_eq_single_of_mem (toupper c - 65)
      (Finset.mem_range.mpr (by omega))]
    · unfold icCount
      rw [countP_replicate]
      have hcond : (isalpha c && toupper c == 65 + (toupper c - 65))
          = true := by
        rw [hc]
        simp only [Bool.true_and, beq_iff_eq]
        omega
      rw [if_pos hcond]
    · intro i _ hne
      unfold icCount
      rw [countP_replicate]
      have hcond : (isalpha c && toupper c == 65 + i) = false := by
        rw [hc]
        simp only [Bool.true_and]
        rw [beq_eq_false_iff_ne]
        omega
      rw [if_neg (by simp [hcond])]
      ring
  rw [hN, hsum]
  have hne : ((n : ℚ)) * ((n : ℚ) - 1) ≠ 0 := by
    have h2 : (2 : ℚ) ≤ (n : ℚ) := by exact_mod_cast hn
    have hpos : (0 : ℚ) < (n : ℚ) * ((n : ℚ) - 1) := by nlinarith
    exact ne_of_gt hpos
  rw [div_self hne]

lemma ic_distinct (text : List Nat) (h : ∀ i < 26, icCount text i ≤ 1) :
    calculate_ic text = 0 := by
  unfold calculate_ic
  split
  · rfl
  · have hsum : (∑ i ∈ Finset.range 26,
        (icCount text i : ℚ) * ((icCount text i : ℚ) - 1)) = 0 := by
      apply Finset.sum_eq_zero
      intro i hi
      have h2 : icCount text i = 0 ∨ icCount text i = 1 := by
        have := h i (Finset.mem_range.mp hi)
        omega
      rcases h2 with h2 | h2 <;> rw [h2] <;> norm_num
    rw [hsum, zero_div]

/-! ## Claim theorems -/

/-- C1 counterexample: the claim fails as stated.  The key `a = -1` is
invertible mod 26 (`gcd(-1,26) = 1`), yet the affine round trip produces no
text at all: `encrypt_affine` rejects the key, because `modInverse` reduces
`a` with C's truncating `%`, which is negative for negative `a`. -/
theorem C1_counterexample :
    Int.gcd (-1 : Int) 26 = 1 ∧
    encrypt_affine [65] (-1) 0 = none ∧
    (encrypt_affine [65] (-1) 0).bind (fun c => decrypt_affine c (-1) 0)
      ≠ some [65] := by
  decide

/-- C1 (amended): Caesar round-trips for every integer shift and text;
Affine round-trips for every key `(a,b)` with `a` nonnegative and invertible
mod 26; Vigenere round-trips for every key with at least one alphabetic
character. -/
theorem C1_roundTrips (T : List Nat) (s : Int) (a b : Int) (K : List Nat)
    (ha : 0 ≤ a) (hg : Int.gcd a 26 = 1) (hK : alphaKeyChars K ≠ []) :
    decrypt_cesar (encrypt_cesar T s) s = T ∧
    (∃ C, encrypt_affine T a b = some C ∧ decrypt_affine C a b = some T) ∧
    (∃ C, encrypt_vigenere T K = some C ∧ decrypt_vigenere C K = some T) :=
  ⟨cesar_roundTrip T s, affine_roundTrip T a b ha hg, vigenere_roundTrip T K hK⟩

/-- C1 witness: the three round trips at concrete inputs. -/
theorem C1_roundTrips_witness :
    (0 : Int) ≤ 5 ∧ Int.gcd (5 : Int) 26 = 1 ∧ alphaKeyChars [49, 107] ≠ [] ∧
    (decrypt_cesar (encrypt_cesar [72, 33, 104] (-3)) (-3) = [72, 33, 104] ∧
     (∃ C, encrypt_affine [72, 33, 104] 5 8 = some C ∧
        decrypt_affine C 5 8 = some [72, 33, 104]) ∧
     (∃ C, encrypt_vigenere [72, 33, 104] [49, 107] = some C ∧
        decrypt_vigenere C [49, 107] = some [72, 33, 104])) :=
  ⟨by decide, by decide, by decide,
    C1_roundTrips [72, 33, 104] (-3) 5 8 [49, 107] (by decide) (by decide) (by decide)⟩

/-- C2 counterexample: for the integer key `{{1,0},{0,-1}}` the normalized
determinant is 25 (coprime with 26), yet `decrypt(encrypt("AB"))` yields the
bytes `[65,40]` (`"A("`), not the processed plaintext `"AB"`: with a negative
entry the block product is negative under C's truncating `%` and the
ciphertext leaves `'A'..'Z'`. -/
theorem C2_counterexample :
    Int.gcd (hillDetNorm ⟨1, 0, 0, -1⟩) 26 = 1 ∧
    processedPlaintext [65, 66] = [65, 66] ∧
    encrypt_hill [65, 66] ⟨1, 0, 0, -1⟩ = some [65, 64] ∧
    decrypt_hill [65, 64] ⟨1, 0, 0, -1⟩ = Except.ok [65, 40] ∧
    [65, 40] ≠ [65, 66] :=
  ⟨by decide, by decide, by decide, rfl, by decide⟩

/-- C2 (amended): for every text and every 2x2 key matrix with nonnegative
entries whose determinant mod 26 is coprime with 26, the Hill decryption of
the Hill encryption is the uppercase-only alphabetic projection of the text,
padded with a trailing `'X'` when of odd length. -/
theorem C2_hill_roundTrip (T : List Nat) (K : Matrix2x2)
    (h00 : 0 ≤ K.m00) (h01 : 0 ≤ K.m01) (h10 : 0 ≤ K.m10) (h11 : 0 ≤ K.m11)
    (hg : Int.gcd (hillDetNorm K) 26 = 1) :
    ∃ C, encrypt_hill T K = some C
      ∧ decrypt_hill C K = Except.ok (processedPlaintext T) :=
  hill_roundTrip T K h00 h01 h10 h11 hg

/-- C2 witness: the Hill round trip at the repository's demo key. -/
theorem C2_hill_roundTrip_witness :
    (0 : Int) ≤ 11 ∧ Int.gcd (hillDetNorm ⟨11, 8, 3, 7⟩) 26 = 1 ∧
    (∃ C, encrypt_hill [104, 105, 33] ⟨11, 8, 3, 7⟩ = some C
      ∧ decrypt_hill C ⟨11, 8, 3, 7⟩
        = Except.ok (processedPlaintext [104, 105, 33])) :=
  ⟨by decide, by decide,
    C2_hill_roundTrip [104, 105, 33] ⟨11, 8, 3, 7⟩
      (by decide) (by decide) (by decide) (by decide) (by decide)⟩

/-- C3: evaluation at the failing input.  `-1` is invertible mod 26, with
inverse 25 in `[1,26)`, but `modInverse (-1) 26` returns the NotInvertible
signal `-1`, contradicting its own documented contract. -/
theorem C3_modInverse_bug :
    modInverse (-1) 26 = -1 ∧
    Int.gcd (-1 : Int) 26 = 1 ∧
    ((-1 : Int) * 25) % 26 = 1 ∧ (1 : Int) ≤ 25 ∧ (25 : Int) < 26 := by
  decide

/-- C4 counterexample: `a = -1` is invertible mod 26, yet both affine
operations fail with InvalidKey, so the failure condition is not exactly
"`a` not invertible mod 26". -/
theorem C4_counterexample :
    Int.gcd (-1 : Int) 26 = 1 ∧
    encrypt_affine [72, 69, 76, 76, 79] (-1) 8 = none ∧
    decrypt_affine [72, 69, 76, 76, 79] (-1) 8 = none := by
  decide

/-- C4 (amended): `encrypt_affine` and `decrypt_affine` fail (produce no
text) exactly when `a` is negative or not invertible mod 26; the scenario
values behave as specified. -/
theorem C4_affine_error_iff (T : List Nat) (a b : Int) :
    (encrypt_affine T a b = none ↔ (a < 0 ∨ Int.gcd a 26 ≠ 1)) ∧
    (decrypt_affine T a b = none ↔ (a < 0 ∨ Int.gcd a 26 ≠ 1)) ∧
    encrypt_affine [72, 69, 76, 76, 79] 5 8 = some [82, 67, 76, 76, 65] ∧
    encrypt_affine [72, 69, 76, 76, 79] 2 8 = none := by
  have h1 : encrypt_affine T a b = none ↔ modInverse a 26 = -1 := by
    unfold encrypt_affine
    split
    · rename_i h
      simp [h]
    · rename_i h
      simp [h]
  have h2 : decrypt_affine T a b = none ↔ modInverse a 26 = -1 := by
    simp only [decrypt_affine]
    split
    · rename_i h
      simp [h]
    · rename_i h
      simp [h]
  refine ⟨?_, ?_, by decide, by decide⟩
  · rw [h1, modInverse_eq_neg_one_iff]
  · rw [h2, modInverse_eq_neg_one_iff]

/-- C5 counterexample: with the empty key (zero alphabetic characters) and
the text `"1"` (no alphabetic character), both Vigenere operations succeed
and return the text unchanged, instead of failing with InvalidKey. -/
theorem C5_counterexample :
    alphaKeyChars ([] : List Nat) = [] ∧
    encrypt_vigenere [49] [] = some [49] ∧
    decrypt_vigenere [49] [] = some [49] := by
  decide

/-- C5 (amended): for every text containing at least one alphabetic
character, both Vigenere operations fail with InvalidKey whenever the key
has zero alphabetic characters (including the empty key). -/
theorem C5_vigenere_invalidKey (text key : List Nat)
    (hk : alphaKeyChars key = []) (ht : 0 < alphaCount text) :
    encrypt_vigenere text key = none ∧ decrypt_vigenere text key = none :=
  ⟨encVigGo_badkey key hk text 0 (Nat.zero_le _) ht,
   decVigGo_badkey key hk text 0 (Nat.zero_le _) ht⟩

/-- C5 witness: the failure at the text `"A"` and the key `"!"`. -/
theorem C5_vigenere_invalidKey_witness :
    alphaKeyChars [33] = [] ∧ 0 < alphaCount [65] ∧
    (encrypt_vigenere [65] [33] = none ∧ decrypt_vigenere [65] [33] = none) :=
  ⟨by decide, by decide,
    C5_vigenere_invalidKey [65] [33] (by decide) (by decide)⟩

/-- C6: whenever the key has at least one alphabetic character, the code's
cursor-based Vigenere encryption equals the specification-side encryption in
which the `n`-th alphabetic plaintext character is shifted by the uppercase
of the `(n mod k)`-th alphabetic key character minus `'A'` (alphabetic key
characters taken in relative order, wrapping), case is preserved, and
non-alphabetic plaintext characters pass through without advancing the
cursor. -/
theorem C6_vigenere_shift_discipline (text key : List Nat)
    (hk : alphaKeyChars key ≠ []) :
    encrypt_vigenere text key = some (specVigEncrypt text key) :=
  encVigGo_spec key hk text 0 0 (vigInv_init key)

/-- C6 witness: the correspondence at the text `"Hi,h"` and the mixed key
`"a!B"`. -/
theorem C6_vigenere_shift_discipline_witness :
    alphaKeyChars [97, 33, 66] ≠ [] ∧
    encrypt_vigenere [72, 105, 44, 104] [97, 33, 66]
      = some (specVigEncrypt [72, 105, 44, 104] [97, 33, 66]) :=
  ⟨by decide, C6_vigenere_shift_discipline [72, 105, 44, 104] [97, 33, 66] (by decide)⟩

/-- C7: `encrypt_hill` fails exactly when the normalized determinant is 0,
even, or a multiple of 13 — equivalently, not coprime with 26 — producing no
output; `decrypt_hill` fails with OddLength for every odd-length ciphertext,
before the key matrix is inverted (the length error wins even for a
non-invertible key), and with NonInvertibleKey when the determinant has no
inverse mod 26. -/
theorem C7_hill_errors (T C : List Nat) (K : Matrix2x2) :
    (encrypt_hill T K = none
      ↔ (hillDetNorm K = 0 ∨ (hillDetNorm K).tmod 2 = 0
          ∨ (hillDetNorm K).tmod 13 = 0)) ∧
    ((hillDetNorm K = 0 ∨ (hillDetNorm K).tmod 2 = 0 ∨ (hillDetNorm K).tmod 13 = 0)
      ↔ Int.gcd (hillDetNorm K) 26 ≠ 1) ∧
    (C.length % 2 = 1 → decrypt_hill C K = Except.error HillError.oddLength) ∧
    (C.length % 2 = 0 → Int.gcd (hillDetNorm K) 26 ≠ 1 →
      decrypt_hill C K = Except.error HillError.nonInvertibleKey) := by
  obtain ⟨hd0, hd1⟩ := hillDetNorm_range K
  refine ⟨?_, det_cond_iff (hillDetNorm K) hd0 hd1, ?_, ?_⟩
  · rw [encrypt_hill_none_iff, det_cond_iff (hillDetNorm K) hd0 hd1]
  · intro hodd
    unfold decrypt_hill
    rw [if_pos (by omega)]
  · intro heven hg
    have hm : modInverse (hillDetNorm K) 26 = -1 :=
      modInverse_not_coprime (hillDetNorm K) hd0 hg
    unfold decrypt_hill
    rw [if_neg (by omega), if_pos hm]

/-- C7 witness: odd-length ciphertext rejected at the demo key, and a
non-invertible key rejected on even-length input. -/
theorem C7_hill_errors_witness :
    decrypt_hill [65] ⟨11, 8, 3, 7⟩ = Except.error HillError.oddLength ∧
    decrypt_hill [65, 66] ⟨2, 0, 0, 2⟩ = Except.error HillError.nonInvertibleKey ∧
    decrypt_hill [65] ⟨2, 0, 0, 2⟩ = Except.error HillError.oddLength :=
  ⟨(C7_hill_errors [] [65] ⟨11, 8, 3, 7⟩).2.2.1 (by decide),
   (C7_hill_errors [] [65, 66] ⟨2, 0, 0, 2⟩).2.2.2 (by decide) (by decide),
   (C7_hill_errors [] [65] ⟨2, 0, 0, 2⟩).2.2.1 (by decide)⟩

/-- C8: `encrypt_cesar` canonicalizes the shift into `[0,25]` congruent to
the given shift mod 26, rotates uppercase letters within `'A'..'Z'` and
lowercase letters within `'a'..'z'` by the canonical shift, passes every
other character through unchanged, never fails (it is a total map, empty
text giving the empty result), and satisfies the
`"BOUBACAR"/"ERXEDFDU"` scenario. -/
theorem C8_cesar_spec (T : List Nat) (s : Int) (c : Nat) :
    (0 ≤ cesarNormShift s ∧ cesarNormShift s < 26
      ∧ cesarNormShift s % 26 = s % 26) ∧
    (65 ≤ c → c ≤ 90 → cesarChar (cesarNormShift s) c
      = (((c : Int) - 65 + cesarNormShift s) % 26 + 65).toNat) ∧
    (97 ≤ c → c ≤ 122 → cesarChar (cesarNormShift s) c
      = (((c : Int) - 97 + cesarNormShift s) % 26 + 97).toNat) ∧
    (isalpha c = false → cesarChar (cesarNormShift s) c = c) ∧
    encrypt_cesar T s = T.map (cesarChar (cesarNormShift s)) ∧
    encrypt_cesar [] s = [] ∧
    encrypt_cesar [66, 79, 85, 66, 65, 67, 65, 82] 3
      = [69, 82, 88, 69, 68, 70, 68, 85] ∧
    decrypt_cesar [69, 82, 88, 69, 68, 70, 68, 85] 3
      = [66, 79, 85, 66, 65, 67, 65, 82] :=
  ⟨⟨(cesarNormShift_range s).1, (cesarNormShift_range s).2, cesarNormShift_emod s⟩,
   fun h1 h2 => cesarChar_upper _ (cesarNormShift_range s).1 c h1 h2,
   fun h1 h2 => cesarChar_lower _ (cesarNormShift_range s).1 c h1 h2,
   fun h => cesarChar_other _ c h,
   rfl, rfl, by decide, by decide⟩

/-- C8 witness: the per-character clauses at an uppercase, a lowercase and a
non-alphabetic character. -/
theorem C8_cesar_spec_witness :
    cesarChar (cesarNormShift 3) 66
      = (((66 : Int) - 65 + cesarNormShift 3) % 26 + 65).toNat ∧
    cesarChar (cesarNormShift 3) 98
      = (((98 : Int) - 97 + cesarNormShift 3) % 26 + 97).toNat ∧
    cesarChar (cesarNormShift 3) 33 = 33 :=
  ⟨(C8_cesar_spec [] 3 66).2.1 (by norm_num) (by norm_num),
   (C8_cesar_spec [] 3 98).2.2.1 (by norm_num) (by norm_num),
   (C8_cesar_spec [] 3 33).2.2.2.1 (by decide)⟩

/-- C9: the index of coincidence is 0 when fewer than two alphabetic
characters are present, otherwise equals
`Σ n_i (n_i - 1) / (N (N - 1))` over the 26 case-folded letter counts; a
text of `n ≥ 2` copies of one letter has index exactly 1, and a text in
which no letter occurs twice (all case-folded counts at most 1) has index
exactly 0.  C doubles are modelled as exact rationals. -/
theorem C9_ic_spec (text : List Nat) (c n : Nat) :
    (alphaCount text < 2 → calculate_ic text = 0) ∧
    (2 ≤ alphaCount text → calculate_ic text
      = (∑ i ∈ Finset.range 26, (icCount text i : ℚ) * ((icCount text i : ℚ) - 1))
        / ((alphaCount text : ℚ) * ((alphaCount text : ℚ) - 1))) ∧
    (isalpha c = true → 2 ≤ n → calculate_ic (List.replicate n c) = 1) ∧
    ((∀ i < 26, icCount text i ≤ 1) → calculate_ic text = 0) :=
  ⟨ic_small text, ic_formula text,
   fun hc hn => ic_replicate c n hc hn, ic_distinct text⟩

/-- C9 witness: the four clauses at concrete texts. -/
theorem C9_ic_spec_witness :
    calculate_ic [65] = 0 ∧
    calculate_ic [65, 66]
      = (∑ i ∈ Finset.range 26,
          (icCount [65, 66] i : ℚ) * ((icCount [65, 66] i : ℚ) - 1))
        / ((alphaCount [65, 66] : ℚ) * ((alphaCount [65, 66] : ℚ) - 1)) ∧
    calculate_ic (List.replicate 3 97) = 1 ∧
    calculate_ic [65, 98] = 0 :=
  ⟨(C9_ic_spec [65] 97 3).1 (by decide),
   (C9_ic_spec [65, 66] 97 3).2.1 (by decide),
   (C9_ic_spec [] 97 3).2.2.1 (by decide) (by decide),
   (C9_ic_spec [65, 98] 97 3).2.2.2 (by decide)⟩

/-- C10: `decrypt_hill` errors exactly on odd length or a determinant not
invertible mod 26; on every even-length input (whatever its characters) with
an invertible key it succeeds, returning the inverse block transform of the
input — a string of the same length — with no check that the characters are
uppercase letters. -/
theorem C10_decrypt_hill_total (C : List Nat) (K : Matrix2x2) :
    ((∃ e, decrypt_hill C K = Except.error e)
      ↔ (C.length % 2 = 1 ∨ Int.gcd (hillDetNorm K) 26 ≠ 1)) ∧
    (C.length % 2 = 0 → Int.gcd (hillDetNorm K) 26 = 1 →
      decrypt_hill C K
        = Except.ok (hillDecBlocks (hillInvKey K (modInverse (hillDetNorm K) 26)) C) ∧
      (hillDecBlocks (hillInvKey K (modInverse (hillDetNorm K) 26)) C).length
        = C.length) := by
  obtain ⟨hd0, hd1⟩ := hillDetNorm_range K
  constructor
  · constructor
    · rintro ⟨e, he⟩
      by_cases hlen : C.length % 2 = 0
      · right
        intro hg
        obtain ⟨h1, -, -⟩ := modInverse_spec_nonneg (hillDetNorm K) hd0 hg
        rw [decrypt_hill_ok C K hlen hg] at he
        exact absurd he (by simp)
      · left
        omega
    · rintro (h | h)
      · refine ⟨HillError.oddLength, ?_⟩
        unfold decrypt_hill
        rw [if_pos (by omega)]
      · by_cases hlen : C.length % 2 = 0
        · refine ⟨HillError.nonInvertibleKey, ?_⟩
          have hm : modInverse (hillDetNorm K) 26 = -1 :=
            modInverse_not_coprime (hillDetNorm K) hd0 h
          unfold decrypt_hill
          rw [if_neg (by omega), if_pos hm]
        · refine ⟨HillError.oddLength, ?_⟩
          unfold decrypt_hill
          rw [if_pos (by omega)]
  · intro hlen hg
    exact ⟨decrypt_hill_ok C K hlen hg, hillDecBlocks_length _ C⟩

/-- C10 witness: an even-length input containing a lowercase and a
non-alphabetic character is decrypted successfully, to a same-length
string. -/
theorem C10_decrypt_hill_total_witness :
    ([97, 33] : List Nat).length % 2 = 0 ∧
    Int.gcd (hillDetNorm ⟨11, 8, 3, 7⟩) 26 = 1 ∧
    (decrypt_hill [97, 33] ⟨11, 8, 3, 7⟩
        = Except.ok (hillDecBlocks
            (hillInvKey ⟨11, 8, 3, 7⟩ (modInverse (hillDetNorm ⟨11, 8, 3, 7⟩) 26))
            [97, 33]) ∧
      (hillDecBlocks
          (hillInvKey ⟨11, 8, 3, 7⟩ (modInverse (hillDetNorm ⟨11, 8, 3, 7⟩) 26))
          [97, 33]).length = ([97, 33] : List Nat).length) :=
  ⟨by decide, by decide,
    (C10_decrypt_hill_total [97, 33] ⟨11, 8, 3, 7⟩).2 (by decide) (by decide)⟩
